import Mathlib

/-!
Verification of the document-linter orchestrator specification against the
quick-lint-js test-harness sources.

Part 1 embeds the ExhaustiveRNG schedule enumerator directly from
src/wasm/test-document.js (class ExhaustiveRNG).  Part 2 models the
DocumentLinter orchestrator, the DocumentProcessManager and the worker
handles from the specification, since only their tests are present in the
source tree, and proves the claimed crash-recovery, ordering and
process-reuse properties over that model.
-/

/-! ## Part 1: ExhaustiveRNG, embedded from src/wasm/test-document.js -/

/-- State of the exhaustive schedule enumerator.  Mirrors the JS class
fields `_counterIndex`, `_counters`, `_done`. -/
structure ExhaustiveRNG where
  counterIndex : Nat
  counters : List Bool
  done : Bool
deriving Repr, DecidableEq

/-- The JS constructor: counterIndex 0, empty counters, not done. -/
def ExhaustiveRNG.start : ExhaustiveRNG :=
  { counterIndex := 0, counters := [], done := false }

/-- `nextCoinFlip` from the source: lazily extend the counter vector with
`false`, return the counter at the current index, advance the index. -/
def ExhaustiveRNG.nextCoinFlip (r : ExhaustiveRNG) : Bool × ExhaustiveRNG :=
  let counters :=
    if r.counters.length ≤ r.counterIndex then r.counters ++ [false] else r.counters
  let result := counters.getD r.counterIndex false
  (result, { counterIndex := r.counterIndex + 1, counters := counters, done := r.done })

/-- The right-to-left update loop inside `lap`: starting at index `i`,
clear trailing `true` counters; on the first `false` counter set it and
stop; if the loop reaches index 0 the lap carried out (second component
`true`), which in the source sets `_done`. -/
def ExhaustiveRNG.lapGo : Nat → List Bool → List Bool × Bool
  | 0, cs => (cs, true)
  | i + 1, cs =>
    if cs.getD i false then ExhaustiveRNG.lapGo i (cs.set i false)
    else (cs.set i true, false)

/-- `lap` from the source: run the update loop from `_counterIndex` down,
set `_done` on carry-out, and reset `_counterIndex` to 0. -/
def ExhaustiveRNG.lap (r : ExhaustiveRNG) : ExhaustiveRNG :=
  let p := ExhaustiveRNG.lapGo r.counterIndex r.counters
  { counterIndex := 0, counters := p.1, done := r.done || p.2 }

/-- `isDone` from the source. -/
def ExhaustiveRNG.isDone (r : ExhaustiveRNG) : Bool := r.done

/-- Draw `n` coin flips in sequence, collecting the results. -/
def ExhaustiveRNG.flips : Nat → ExhaustiveRNG → List Bool × ExhaustiveRNG
  | 0, r => ([], r)
  | n + 1, r =>
    let p := r.nextCoinFlip
    let q := ExhaustiveRNG.flips n p.2
    (p.1 :: q.1, q.2)

/-- One test lap that draws `n` flips and then calls `lap`, returning the
flip tuple and the post-lap state. -/
def ExhaustiveRNG.lapRun (n : Nat) (r : ExhaustiveRNG) : List Bool × ExhaustiveRNG :=
  let p := ExhaustiveRNG.flips n r
  (p.1, p.2.lap)

/-- Run laps drawing `n` flips each, following a list of lap sizes;
collect each lap's flip tuple and the `isDone` value observed after its
`lap()` call. -/
def ExhaustiveRNG.runLaps : List Nat → ExhaustiveRNG → List (List Bool × Bool)
  | [], _ => []
  | n :: rest, r =>
    let p := ExhaustiveRNG.lapRun n r
    (p.1, p.2.isDone) :: ExhaustiveRNG.runLaps rest p.2

/-- C8: a run drawing exactly three coin flips per lap yields exactly the
8 tuples FFF, FFT, FTF, FTT, TFF, TFT, TTF, TTT in that order (ascending
binary order, rightmost flip least significant), with `isDone` returning
true only after the eighth lap. -/
theorem exhaustiveRNG_three_flips_enumerates_in_binary_order :
    ExhaustiveRNG.runLaps [3, 3, 3, 3, 3, 3, 3, 3] ExhaustiveRNG.start =
      [([false, false, false], false),
       ([false, false, true], false),
       ([false, true, false], false),
       ([false, true, true], false),
       ([true, false, false], false),
       ([true, false, true], false),
       ([true, true, false], false),
       ([true, true, true], true)] := by
  decide

/-- Helper: setting an index at or past `m` does not change the first `m`
elements. -/
theorem take_set_of_le_idx {α : Type} (l : List α) (m n : Nat) (a : α) (h : m ≤ n) :
    (l.set n a).take m = l.take m := by
  apply List.ext_getElem?
  intro i
  rw [List.getElem?_take, List.getElem?_take]
  by_cases hi : i < m
  · simp [hi, List.getElem?_set_ne (by omega : n ≠ i)]
  · simp [hi]

/-- Helper: `getD` of an all-false list is false at every index. -/
theorem getD_false_of_all_false (l : List Bool) (i : Nat)
    (h : ∀ b ∈ l, b = false) : l.getD i false = false := by
  induction l generalizing i with
  | nil => simp
  | cons a t ih =>
    match i with
    | 0 => simpa using h a (by simp)
    | j + 1 =>
      simpa using ih j (fun b hb => h b (by simp [hb]))

/-- Helper: from an all-false counter vector, every flip of the lap comes
out false and the counters stay all-false. -/
theorem flips_all_false : ∀ (n : Nat) (r : ExhaustiveRNG),
    (∀ b ∈ r.counters, b = false) →
    (ExhaustiveRNG.flips n r).1 = List.replicate n false ∧
      (∀ b ∈ (ExhaustiveRNG.flips n r).2.counters, b = false) := by
  intro n
  induction n with
  | zero => intro r h; exact ⟨rfl, h⟩
  | succ m ih =>
    intro r h
    have hall : ∀ b ∈ (if r.counters.length ≤ r.counterIndex
        then r.counters ++ [false] else r.counters), b = false := by
      split
      · intro b hb
        rcases List.mem_append.1 hb with hb | hb
        · exact h b hb
        · simpa using hb
      · exact h
    have hres :
        (if r.counters.length ≤ r.counterIndex then r.counters ++ [false]
          else r.counters).getD r.counterIndex false = false :=
      getD_false_of_all_false _ _ hall
    have := ih (r.nextCoinFlip).2 (by simpa [ExhaustiveRNG.nextCoinFlip] using hall)
    simp only [ExhaustiveRNG.flips]
    refine ⟨?_, this.2⟩
    simp only [List.replicate_succ]
    refine congrArg₂ List.cons ?_ this.1
    simpa [ExhaustiveRNG.nextCoinFlip] using hres

/-- C9: the first lap returns all-false for any number of draws, and with
draw counts 1, 2, 3, 3, 2, 3 the laps progress exactly through the
spec example [F], [T F], [T T F], [T T T], [F F], [F T F]. -/
theorem exhaustiveRNG_first_lap_all_false_and_example_progression :
    (∀ n : Nat,
      (ExhaustiveRNG.flips n ExhaustiveRNG.start).1 = List.replicate n false) ∧
    (ExhaustiveRNG.runLaps [1, 2, 3, 3, 2, 3] ExhaustiveRNG.start).map Prod.fst =
      [[false], [true, false], [true, true, false], [true, true, true],
       [false, false], [false, true, false]] := by
  constructor
  · intro n
    exact (flips_all_false n ExhaustiveRNG.start (by simp [ExhaustiveRNG.start])).1
  · decide

/-- Helper: one flip advances the index, keeps the index within bounds,
preserves the done flag, and extends the prefix of read counters by the
returned value. -/
theorem nextCoinFlip_spec (r : ExhaustiveRNG)
    (h : r.counterIndex ≤ r.counters.length) :
    (r.nextCoinFlip).2.counterIndex = r.counterIndex + 1 ∧
    (r.nextCoinFlip).2.counterIndex ≤ (r.nextCoinFlip).2.counters.length ∧
    (r.nextCoinFlip).2.done = r.done ∧
    (r.nextCoinFlip).2.counters.take (r.counterIndex + 1) =
      r.counters.take r.counterIndex ++ [(r.nextCoinFlip).1] := by
  by_cases hlen : r.counters.length ≤ r.counterIndex
  · have heq : r.counterIndex = r.counters.length := le_antisymm h hlen
    refine ⟨by simp [ExhaustiveRNG.nextCoinFlip], ?_, by simp [ExhaustiveRNG.nextCoinFlip], ?_⟩
    · simp [ExhaustiveRNG.nextCoinFlip, hlen, heq]
    · simp only [ExhaustiveRNG.nextCoinFlip, if_pos hlen]
      rw [heq]
      rw [List.take_succ]
      have hget : (r.counters ++ [false])[r.counters.length]? = some false := by
        rw [List.getElem?_append_right (le_refl _)]
        simp
      rw [List.take_append_of_le_length (le_refl _), List.take_length]
      have hgetD : (r.counters ++ [false]).getD r.counters.length false = false := by
        simp [List.getD_eq_getElem?_getD, hget]
      simp [hget, hgetD]
  · have hlt : r.counterIndex < r.counters.length := by omega
    refine ⟨by simp [ExhaustiveRNG.nextCoinFlip], ?_, by simp [ExhaustiveRNG.nextCoinFlip], ?_⟩
    · simp [ExhaustiveRNG.nextCoinFlip, hlen]
      omega
    · have hsome : r.counters[r.counterIndex]? = some r.counters[r.counterIndex] :=
        List.getElem?_eq_getElem hlt
      have hgd : r.counters.getD r.counterIndex false = r.counters[r.counterIndex] := by
        rw [List.getD_eq_getElem?_getD, hsome]
        rfl
      simp only [ExhaustiveRNG.nextCoinFlip, if_neg hlen]
      rw [List.take_succ, hsome, hgd]
      rfl

/-- Helper: drawing `n` flips advances the index by `n`, keeps it within
bounds, preserves the done flag, and records exactly the returned flips in
the freshly read segment of the counters. -/
theorem flips_spec : ∀ (n : Nat) (r : ExhaustiveRNG),
    r.counterIndex ≤ r.counters.length →
    (ExhaustiveRNG.flips n r).2.counterIndex = r.counterIndex + n ∧
    (ExhaustiveRNG.flips n r).2.counterIndex ≤
      (ExhaustiveRNG.flips n r).2.counters.length ∧
    (ExhaustiveRNG.flips n r).2.done = r.done ∧
    (ExhaustiveRNG.flips n r).2.counters.take (r.counterIndex + n) =
      r.counters.take r.counterIndex ++ (ExhaustiveRNG.flips n r).1 := by
  intro n
  induction n with
  | zero => intro r h; exact ⟨rfl, h, rfl, by simp [ExhaustiveRNG.flips]⟩
  | succ m ih =>
    intro r h
    obtain ⟨h1, h2, h3, h4⟩ := nextCoinFlip_spec r h
    obtain ⟨g1, g2, g3, g4⟩ := ih (r.nextCoinFlip).2 h2
    simp only [ExhaustiveRNG.flips]
    refine ⟨by rw [g1, h1]; omega, g2, by rw [g3, h3], ?_⟩
    have hidx : r.counterIndex + (m + 1) = (r.nextCoinFlip).2.counterIndex + m := by
      rw [h1]; omega
    calc (ExhaustiveRNG.flips m (r.nextCoinFlip).2).2.counters.take (r.counterIndex + (m + 1))
        = (ExhaustiveRNG.flips m (r.nextCoinFlip).2).2.counters.take
            ((r.nextCoinFlip).2.counterIndex + m) := by rw [hidx]
      _ = (r.nextCoinFlip).2.counters.take (r.nextCoinFlip).2.counterIndex ++
            (ExhaustiveRNG.flips m (r.nextCoinFlip).2).1 := g4
      _ = (r.counters.take r.counterIndex ++ [(r.nextCoinFlip).1]) ++
            (ExhaustiveRNG.flips m (r.nextCoinFlip).2).1 := by rw [h1, h4]
      _ = r.counters.take r.counterIndex ++
            ((r.nextCoinFlip).1 :: (ExhaustiveRNG.flips m (r.nextCoinFlip).2).1) := by
          simp

/-- Helper: `getD` is unchanged by `set` at a different index. -/
theorem getD_set_ne {α : Type} (l : List α) (i j : Nat) (a d : α) (h : i ≠ j) :
    (l.set i a).getD j d = l.getD j d := by
  simp [List.getD_eq_getElem?_getD, List.getElem?_set_ne h]

/-- Helper: the carry-out of the lap loop is true exactly when the first
`i` counters are all true. -/
theorem lapGo_done : ∀ (i : Nat) (cs : List Bool), i ≤ cs.length →
    (ExhaustiveRNG.lapGo i cs).2 = (cs.take i).all (fun b => b) := by
  intro i
  induction i with
  | zero => intro cs _; simp [ExhaustiveRNG.lapGo]
  | succ m ih =>
    intro cs h
    have hlt : m < cs.length := by omega
    have hsome : cs[m]? = some cs[m] := List.getElem?_eq_getElem hlt
    have hgd : cs.getD m false = cs[m] := by
      rw [List.getD_eq_getElem?_getD, hsome]
      rfl
    have htake : cs.take (m + 1) = cs.take m ++ [cs[m]] := by
      rw [List.take_succ, hsome]
      rfl
    simp only [ExhaustiveRNG.lapGo, hgd]
    by_cases hb : cs[m] = true
    · rw [if_pos hb]
      rw [ih (cs.set m false) (by simp; omega)]
      rw [take_set_of_le_idx cs m m false (le_refl m), htake]
      simp [hb]
    · rw [if_neg hb]
      rw [htake]
      simp [Bool.eq_false_iff.mpr hb]

/-- Helper: the lap loop starting at index `i` leaves every counter at an
index at or past `i` unchanged. -/
theorem lapGo_getD_ge : ∀ (i : Nat) (cs : List Bool) (j : Nat) (d : Bool), i ≤ j →
    ((ExhaustiveRNG.lapGo i cs).1).getD j d = cs.getD j d := by
  intro i
  induction i with
  | zero => intro cs j d _; simp [ExhaustiveRNG.lapGo]
  | succ m ih =>
    intro cs j d h
    simp only [ExhaustiveRNG.lapGo]
    by_cases hb : cs.getD m false = true
    · rw [if_pos hb, ih (cs.set m false) j d (by omega)]
      exact getD_set_ne cs m j false d (by omega)
    · rw [if_neg hb]
      exact getD_set_ne cs m j true d (by omega)

/-- C10: the lap call considers only the flips drawn since the previous
lap.  If the lap drew k flips, then after lap(): the done flag is set
exactly when all k drawn flips were true (or it was already set, including
the vacuous k = 0 lap), counters at indices at or past k are untouched,
and once done the enumerator stays done under lap and under nextCoinFlip. -/
theorem exhaustiveRNG_lap_scoped_to_current_lap
    (r0 : ExhaustiveRNG) (k : Nat) (fs : List Bool) (r1 : ExhaustiveRNG)
    (h0 : r0.counterIndex = 0)
    (hf : ExhaustiveRNG.flips k r0 = (fs, r1)) :
    (r1.lap).done = (r0.done || fs.all (fun b => b)) ∧
    (∀ j d, k ≤ j → (r1.lap).counters.getD j d = r1.counters.getD j d) ∧
    (∀ r : ExhaustiveRNG, r.done = true → (r.lap).done = true) ∧
    (∀ r : ExhaustiveRNG, (r.nextCoinFlip).2.done = r.done) := by
  have hbase : r0.counterIndex ≤ r0.counters.length := by
    rw [h0]; exact Nat.zero_le _
  obtain ⟨s1, s2, s3, s4⟩ := flips_spec k r0 hbase
  rw [hf] at s1 s2 s3 s4
  rw [h0] at s1 s4
  simp only [Nat.zero_add, List.take_zero, List.nil_append] at s1 s4
  refine ⟨?_, ?_, ?_, ?_⟩
  · show (r1.lap).done = _
    simp only [ExhaustiveRNG.lap]
    rw [lapGo_done r1.counterIndex r1.counters s2, s1, s4, s3]
  · intro j d hj
    simp only [ExhaustiveRNG.lap]
    exact lapGo_getD_ge r1.counterIndex r1.counters j d (by omega)
  · intro r hr
    simp [ExhaustiveRNG.lap, hr]
  · intro r
    simp [ExhaustiveRNG.nextCoinFlip]

/-- Witness for C10 at a concrete two-flip lap from the start state. -/
theorem exhaustiveRNG_lap_scoped_witness :
    ((ExhaustiveRNG.flips 2 ExhaustiveRNG.start).2.lap).done =
      (false || ([false, false]).all (fun b => b)) :=
  (exhaustiveRNG_lap_scoped_to_current_lap ExhaustiveRNG.start 2 [false, false]
    (ExhaustiveRNG.flips 2 ExhaustiveRNG.start).2 rfl (by decide)).1

/-! ## Part 2: model of the DocumentLinter orchestrator

The implementation of DocumentLinter, DocumentProcessManager and the
worker handles is exercised by src/wasm/test-document.js but is not itself
part of the source tree, so the following definitions are modelled from
the specification (sections 3 to 7).  Diagnostics are abstracted as the
value of an arbitrary engine lint function over the engine-side text. -/

/-- Modelled from the spec: a TextChange carries a start and end position
(line and character) and the replacement text (section 3, TextChange). -/
structure TextChange where
  startLine : Nat
  startCharacter : Nat
  endLine : Nat
  endCharacter : Nat
  text : List Char
deriving DecidableEq

/-- Modelled from the spec: translate a line and character position into a
character offset, counting newline characters. -/
def posOffset : List Char → Nat → Nat → Nat
  | _, 0, ch => ch
  | [], _ + 1, _ => 0
  | c :: rest, l + 1, ch =>
    1 + posOffset rest (if c = Char.ofNat 10 then l else l + 1) ch

/-- Modelled from the spec: apply one incremental text change by splicing
the replacement text over the addressed range (section 6.2 applyChange). -/
def applyTextChange (t : List Char) (ch : TextChange) : List Char :=
  t.take (posOffset t ch.startLine ch.startCharacter) ++ ch.text ++
    t.drop (posOffset t ch.endLine ch.endCharacter)

/-- Modelled from the spec: apply a change list in order. -/
def applyAllChanges (t : List Char) (chs : List TextChange) : List Char :=
  chs.foldl applyTextChange t

/-- Modelled from the spec: Document Process Manager state — the
currently handed-out worker, the monotone creation counter, and the set of
worker ids observed crashed (section 4.2).  Workers are identified by
their creation index. -/
structure Mgr where
  current : Option Nat
  everCreated : Nat
  crashed : List Nat
deriving DecidableEq

/-- Modelled from the spec: the manager before any worker exists. -/
def Mgr.begin : Mgr := { current := none, everCreated := 0, crashed := [] }

/-- Modelled from the spec: reportCrashed marks a handle terminally
crashed (section 4.2). -/
def Mgr.reportCrashed (m : Mgr) (w : Nat) : Mgr :=
  { m with crashed := if w ∈ m.crashed then m.crashed else w :: m.crashed }

/-- Modelled from the spec: provision a fresh worker, incrementing the
creation counter and handing out the new id. -/
def Mgr.createWorker (m : Mgr) : Nat × Mgr :=
  (m.everCreated,
   { current := some m.everCreated, everCreated := m.everCreated + 1,
     crashed := m.crashed })

/-- Modelled from the spec: acquireWorker returns the live worker, creating
one on first call and whenever the previously-held one is crashed
(section 4.2). -/
def Mgr.acquireWorker (m : Mgr) : Nat × Mgr :=
  match m.current with
  | none => m.createWorker
  | some w => if w ∈ m.crashed then m.createWorker else (w, m)

/-- Modelled from the spec: shared engine context — the manager, the
engine lint function, the schedule of injected faults (one flip per engine
call, exhausted schedule means no fault), a crash counter, and audit
traces of engine entries and acquisitions, each snapshotting the crashed
set at the time. -/
structure EngineCtx where
  mgr : Mgr
  lintF : List Char → List Nat
  faults : List Bool
  crashes : Nat
  engineTrace : List (Nat × List Nat)
  acquireTrace : List (Nat × List Nat)

/-- Modelled from the spec: an orchestrator acquiring a worker through the
manager, recording the acquisition. -/
def acquire (ctx : EngineCtx) : Nat × EngineCtx :=
  ((ctx.mgr.acquireWorker).1,
   { ctx with
     mgr := (ctx.mgr.acquireWorker).2
     acquireTrace := ((ctx.mgr.acquireWorker).1, ctx.mgr.crashed) :: ctx.acquireTrace })

/-- Modelled from the spec: one engine call on worker `w`.  A sticky
crashed handle fails synchronously without reaching the engine
(section 4.3); otherwise the call is recorded, the fault hook consumes one
flip, and an injected fault marks the worker crashed before any visible
effect (section 5, fault-injection hook).  Returns true when the call
failed with ProcessCrashed. -/
def engineCall (w : Nat) (ctx : EngineCtx) : Bool × EngineCtx :=
  if w ∈ ctx.mgr.crashed then (true, ctx)
  else
    match ctx.faults with
    | [] =>
      (false, { ctx with engineTrace := (w, ctx.mgr.crashed) :: ctx.engineTrace })
    | f :: rest =>
      if f then
        (true, { ctx with
                 engineTrace := (w, ctx.mgr.crashed) :: ctx.engineTrace
                 faults := rest
                 mgr := ctx.mgr.reportCrashed w
                 crashes := ctx.crashes + 1 })
      else
        (false, { ctx with
                  engineTrace := (w, ctx.mgr.crashed) :: ctx.engineTrace
                  faults := rest })

/-- Modelled from the spec: the external document — current editor text
and the published diagnostic set (section 6.1). -/
structure DocState where
  text : List Char
  diags : List Nat
deriving DecidableEq

/-- Modelled from the spec: an engine-side document handle — the owning
worker and the engine-side text driven by the change list. -/
structure EngineDoc where
  worker : Nat
  text : List Char
deriving DecidableEq

/-- Modelled from the spec: the per-linter core — its document and its
engine-side document, if materialized. -/
structure Core where
  doc : DocState
  engineDoc : Option EngineDoc
deriving DecidableEq

/-- Modelled from the spec: materialize an engine-side document from the
document's current text and lint it, publishing diagnostics on success
(section 4.1, OpenEditor steps 1 to 4).  Returns none when an engine call
crashed; no diagnostics are published in that case. -/
def attemptOpenLint (c : Core) (ctx : EngineCtx) : Option Core × EngineCtx :=
  if (engineCall (acquire ctx).1 (acquire ctx).2).1 then
    (none, (engineCall (acquire ctx).1 (acquire ctx).2).2)
  else if (engineCall (acquire ctx).1
      (engineCall (acquire ctx).1 (acquire ctx).2).2).1 then
    (none, (engineCall (acquire ctx).1
      (engineCall (acquire ctx).1 (acquire ctx).2).2).2)
  else
    (some { doc := { text := c.doc.text, diags := ctx.lintF c.doc.text },
            engineDoc := some { worker := (acquire ctx).1, text := c.doc.text } },
     (engineCall (acquire ctx).1
       (engineCall (acquire ctx).1 (acquire ctx).2).2).2)

/-- Modelled from the spec: submit each change of the list to the engine
in order; the engine-side text is driven purely by the change list
(section 4.1, ApplyChanges).  Returns none on the first crashed call. -/
def applyChangesLoop (w : Nat) : List TextChange → List Char → EngineCtx →
    Option (List Char) × EngineCtx
  | [], t, ctx => (some t, ctx)
  | ch :: rest, t, ctx =>
    if (engineCall w ctx).1 then (none, (engineCall w ctx).2)
    else applyChangesLoop w rest (applyTextChange t ch) (engineCall w ctx).2

/-- Modelled from the spec: the ApplyChanges engine interaction — if no
engine document exists yet, materialize from the current text (which
already reflects the changes); otherwise submit the change list, lint, and
publish diagnostics for the resulting engine-side text. -/
def attemptChanges (chs : List TextChange) (c : Core) (ctx : EngineCtx) :
    Option Core × EngineCtx :=
  match c.engineDoc with
  | none => attemptOpenLint c ctx
  | some ed =>
    match (applyChangesLoop ed.worker chs ed.text ctx).1 with
    | none => (none, (applyChangesLoop ed.worker chs ed.text ctx).2)
    | some t2 =>
      if (engineCall ed.worker (applyChangesLoop ed.worker chs ed.text ctx).2).1 then
        (none, (engineCall ed.worker (applyChangesLoop ed.worker chs ed.text ctx).2).2)
      else
        (some { doc := { text := c.doc.text, diags := ctx.lintF t2 },
                engineDoc := some { worker := ed.worker, text := t2 } },
         (engineCall ed.worker (applyChangesLoop ed.worker chs ed.text ctx).2).2)

/-- Modelled from the spec: the public operations of a linter
(section 4.1). -/
inductive LintOp
  | openEditor : LintOp
  | textChanged : List TextChange → LintOp
deriving DecidableEq

/-- Modelled from the spec: settle results of a public operation —
success, a surfaced LintingCrashed, or DocumentLinterDisposed. -/
inductive Outcome
  | ok : Outcome
  | lintingCrashed : Outcome
  | disposedError : Outcome
deriving DecidableEq

/-- Modelled from the spec: the first engine interaction of an operation. -/
def attemptOp : LintOp → Core → EngineCtx → Option Core × EngineCtx
  | .openEditor, c, ctx => attemptOpenLint c ctx
  | .textChanged chs, c, ctx => attemptChanges chs c ctx

/-- Modelled from the spec: crash recovery — drop the engine document and
re-materialize from the document's current text on a freshly acquired
worker, linting it (section 4.1, crash recovery steps 1 to 4). -/
def recoverOpenLint (c : Core) (ctx : EngineCtx) : Option Core × EngineCtx :=
  attemptOpenLint { c with engineDoc := none } ctx

/-- Modelled from the spec: process one public operation to its settle
point.  A crash in the first engine interaction triggers recovery; a
successful recovery absorbs the crash, and a crash during recovery itself
is surfaced as LintingCrashed, leaving the published diagnostics untouched
(sections 4.1 and 7). -/
def processOp (op : LintOp) (c : Core) (ctx : EngineCtx) :
    Outcome × Core × EngineCtx :=
  match (attemptOp op c ctx).1 with
  | some c2 => (.ok, c2, (attemptOp op c ctx).2)
  | none =>
    match (recoverOpenLint c (attemptOp op c ctx).2).1 with
    | some c2 => (.ok, c2, (recoverOpenLint c (attemptOp op c ctx).2).2)
    | none =>
      (.lintingCrashed, { c with engineDoc := none },
       (recoverOpenLint c (attemptOp op c ctx).2).2)

/-- Modelled from the spec: the full per-linter state — core, disposed
flag, the FIFO queue of pending operations tagged by call order, the next
call id, and the settled results in settle order. -/
structure LinterState where
  core : Core
  disposed : Bool
  pending : List (Nat × LintOp)
  nextOpId : Nat
  settled : List (Nat × Outcome)

/-- Modelled from the spec: a fresh linter over a document with the given
text; no diagnostics are published yet. -/
def mkLinter (t : List Char) : LinterState :=
  { core := { doc := { text := t, diags := [] }, engineDoc := none },
    disposed := false, pending := [], nextOpId := 0, settled := [] }

/-- Modelled from the spec: release the engine-side document if any; a
crash of the destroy call is ignored (section 6.2, destroyDocument). -/
def disposeCore (c : Core) (ctx : EngineCtx) : Core × EngineCtx :=
  match c.engineDoc with
  | none => (c, ctx)
  | some ed => ({ c with engineDoc := none }, (engineCall ed.worker ctx).2)

/-- Modelled from the spec: disposeAsync — destroys the engine document,
settles every still-pending operation with DocumentLinterDisposed, marks
the linter disposed, and never throws (section 4.1 disposeAsync,
section 5 cancellation). -/
def disposeLinter (li : LinterState) (ctx : EngineCtx) :
    Outcome × LinterState × EngineCtx :=
  (.ok,
   { core := (disposeCore li.core ctx).1, disposed := true, pending := [],
     nextOpId := li.nextOpId,
     settled := li.settled ++ li.pending.map (fun q => (q.1, Outcome.disposedError)) },
   (disposeCore li.core ctx).2)

/-- Modelled from the spec: a public call enqueues a pending operation and
takes the next call id; a disposed linter refuses the call, settling it
immediately with DocumentLinterDisposed. -/
def callLinter (li : LinterState) (op : LintOp) : LinterState :=
  if li.disposed then
    { li with
      settled := li.settled ++ [(li.nextOpId, Outcome.disposedError)]
      nextOpId := li.nextOpId + 1 }
  else
    { li with
      pending := li.pending ++ [(li.nextOpId, op)]
      nextOpId := li.nextOpId + 1 }

/-- Modelled from the spec: the serial executor takes the head-of-line
pending operation, runs it to its settle point, and records its result;
a disposed or idle linter does nothing (section 4.1, operation queue
discipline). -/
def stepLinter (li : LinterState) (ctx : EngineCtx) : LinterState × EngineCtx :=
  if li.disposed then (li, ctx)
  else
    match li.pending with
    | [] => (li, ctx)
    | p :: rest =>
      ({ li with
         core := (processOp p.2 li.core ctx).2.1
         pending := rest
         settled := li.settled ++ [(p.1, (processOp p.2 li.core ctx).1)] },
       (processOp p.2 li.core ctx).2.2)

/-- Modelled from the spec: driver events — a public call on linter i, a
scheduler step letting linter i execute its queue head, or disposing
linter i.  Interleaving these events explores the cooperative schedules of
section 5. -/
inductive Ev
  | call : Nat → LintOp → Ev
  | step : Nat → Ev
  | disposeEv : Nat → Ev

/-- Modelled from the spec: the whole system — the linters sharing one
process manager and engine context. -/
structure Sys where
  linters : List LinterState
  ctx : EngineCtx

/-- Modelled from the spec: execute one driver event. -/
def execEv (s : Sys) (e : Ev) : Sys :=
  match e with
  | .call i op =>
    match s.linters[i]? with
    | none => s
    | some li => { s with linters := s.linters.set i (callLinter li op) }
  | .step i =>
    match s.linters[i]? with
    | none => s
    | some li =>
      { linters := s.linters.set i (stepLinter li s.ctx).1,
        ctx := (stepLinter li s.ctx).2 }
  | .disposeEv i =>
    match s.linters[i]? with
    | none => s
    | some li =>
      { linters := s.linters.set i (disposeLinter li s.ctx).2.1,
        ctx := (disposeLinter li s.ctx).2.2 }

/-- Modelled from the spec: run a driver schedule. -/
def runSys (s : Sys) : List Ev → Sys
  | [] => s
  | e :: rest => runSys (execEv s e) rest

/-- Modelled from the spec: the initial system over documents with the
given texts, a lint function, and a fault schedule. -/
def initSys (lintF : List Char → List Nat) (texts : List (List Char))
    (faults : List Bool) : Sys :=
  { linters := texts.map mkLinter,
    ctx := { mgr := Mgr.begin, lintF := lintF, faults := faults, crashes := 0,
             engineTrace := [], acquireTrace := [] } }

/-- The default linter used for out-of-range queue lookups. -/
def defaultLinter : LinterState := mkLinter []


/-- The engine lint function used in concrete witnesses: the length of the
linted text as a single diagnostic. -/
def lintLen : List Char → List Nat := fun t => [t.length]

/-- Engine context over a fresh manager with a given fault schedule, used
in concrete witnesses. -/
def ctxOf (faults : List Bool) : EngineCtx :=
  { mgr := Mgr.begin, lintF := lintLen, faults := faults, crashes := 0,
    engineTrace := [], acquireTrace := [] }

/-- A fresh unopened linter core over a document with the given text. -/
def coreOf (t : List Char) : Core :=
  { doc := { text := t, diags := [] }, engineDoc := none }

/-- An engine call never changes the lint function, never changes the
creation counter, and never decreases the crash counter. -/
theorem engineCall_fields (w : Nat) (ctx : EngineCtx) :
    (engineCall w ctx).2.lintF = ctx.lintF ∧
    (engineCall w ctx).2.mgr.everCreated = ctx.mgr.everCreated ∧
    ctx.crashes ≤ (engineCall w ctx).2.crashes := by
  unfold engineCall
  by_cases hw : w ∈ ctx.mgr.crashed
  · simp [hw]
  · simp only [if_neg hw]
    cases hf : ctx.faults with
    | nil => simp [hf]
    | cons f rest =>
      cases f with
      | false => simp [hf]
      | true => simp [hf, Mgr.reportCrashed]

/-- A non-sticky engine call that did not increase the crash counter
returned success and left the manager unchanged. -/
theorem engineCall_no_crash (w : Nat) (ctx : EngineCtx)
    (hw : w ∉ ctx.mgr.crashed)
    (h : (engineCall w ctx).2.crashes = ctx.crashes) :
    (engineCall w ctx).1 = false ∧ (engineCall w ctx).2.mgr = ctx.mgr := by
  unfold engineCall at *
  simp only [if_neg hw] at *
  cases hf : ctx.faults with
  | nil => simp [hf]
  | cons f rest =>
    cases f with
    | false => simp [hf]
    | true => simp [hf] at h

/-- Acquisition never changes the lint function, the crashed set, the
fault schedule or the crash counter, and it only grows the creation
counter. -/
theorem acquire_fields (ctx : EngineCtx) :
    (acquire ctx).2.lintF = ctx.lintF ∧
    (acquire ctx).2.mgr.crashed = ctx.mgr.crashed ∧
    (acquire ctx).2.faults = ctx.faults ∧
    (acquire ctx).2.crashes = ctx.crashes ∧
    ctx.mgr.everCreated ≤ (acquire ctx).2.mgr.everCreated := by
  unfold acquire Mgr.acquireWorker Mgr.createWorker
  cases hc : ctx.mgr.current with
  | none => simp
  | some w =>
    by_cases hw : w ∈ ctx.mgr.crashed
    · simp [hw]
    · simp [hw]

/-- The first engine interaction of an open preserves the lint function. -/
theorem attemptOpenLint_lintF (c : Core) (ctx : EngineCtx) :
    (attemptOpenLint c ctx).2.lintF = ctx.lintF := by
  unfold attemptOpenLint
  have ha := (acquire_fields ctx).1
  have h1 := (engineCall_fields (acquire ctx).1 (acquire ctx).2).1
  have h2 := (engineCall_fields (acquire ctx).1
    (engineCall (acquire ctx).1 (acquire ctx).2).2).1
  split
  · rw [h1, ha]
  · split
    · rw [h2, h1, ha]
    · rw [h2, h1, ha]

/-- The change-submission loop preserves the lint function. -/
theorem applyChangesLoop_lintF : ∀ (chs : List TextChange) (w : Nat)
    (t : List Char) (ctx : EngineCtx),
    (applyChangesLoop w chs t ctx).2.lintF = ctx.lintF := by
  intro chs
  induction chs with
  | nil => intro w t ctx; rfl
  | cons ch rest ih =>
    intro w t ctx
    unfold applyChangesLoop
    have h1 := (engineCall_fields w ctx).1
    split
    · rw [h1]
    · rw [ih, h1]

/-- The change-application interaction preserves the lint function. -/
theorem attemptChanges_lintF (chs : List TextChange) (c : Core) (ctx : EngineCtx) :
    (attemptChanges chs c ctx).2.lintF = ctx.lintF := by
  unfold attemptChanges
  split
  · exact attemptOpenLint_lintF c ctx
  · next ed heq =>
    split
    · exact applyChangesLoop_lintF chs ed.worker ed.text ctx
    · split
      · rw [(engineCall_fields ed.worker
          (applyChangesLoop ed.worker chs ed.text ctx).2).1]
        exact applyChangesLoop_lintF chs ed.worker ed.text ctx
      · rw [(engineCall_fields ed.worker
          (applyChangesLoop ed.worker chs ed.text ctx).2).1]
        exact applyChangesLoop_lintF chs ed.worker ed.text ctx

/-- The first engine interaction of any public operation preserves the
lint function. -/
theorem attemptOp_lintF (op : LintOp) (c : Core) (ctx : EngineCtx) :
    (attemptOp op c ctx).2.lintF = ctx.lintF := by
  cases op with
  | openEditor => exact attemptOpenLint_lintF c ctx
  | textChanged chs => exact attemptChanges_lintF chs c ctx

/-- A successful open-and-lint publishes exactly the engine diagnostics of
the document's current text and leaves the document text unchanged. -/
theorem attemptOpenLint_some (c : Core) (ctx : EngineCtx) (c2 : Core)
    (h : (attemptOpenLint c ctx).1 = some c2) :
    c2.doc.diags = ctx.lintF c.doc.text ∧ c2.doc.text = c.doc.text := by
  unfold attemptOpenLint at h
  split at h
  · simp at h
  · split at h
    · simp at h
    · simp only [Option.some.injEq] at h
      subst h
      exact ⟨rfl, rfl⟩

/-- Every run of processOp is one of: first attempt succeeded, recovery
absorbed the crash, or the crash was surfaced. -/
theorem processOp_cases (op : LintOp) (c : Core) (ctx : EngineCtx) :
    (∃ c2, (attemptOp op c ctx).1 = some c2 ∧
      processOp op c ctx = (Outcome.ok, c2, (attemptOp op c ctx).2)) ∨
    ((attemptOp op c ctx).1 = none ∧
      ∃ c2, (recoverOpenLint c (attemptOp op c ctx).2).1 = some c2 ∧
        processOp op c ctx =
          (Outcome.ok, c2, (recoverOpenLint c (attemptOp op c ctx).2).2)) ∨
    ((attemptOp op c ctx).1 = none ∧
      (recoverOpenLint c (attemptOp op c ctx).2).1 = none ∧
      processOp op c ctx =
        (Outcome.lintingCrashed, { c with engineDoc := none },
         (recoverOpenLint c (attemptOp op c ctx).2).2)) := by
  cases h1 : (attemptOp op c ctx).1 with
  | some c2 =>
    left
    exact ⟨c2, rfl, by unfold processOp; rw [h1]⟩
  | none =>
    right
    cases h2 : (recoverOpenLint c (attemptOp op c ctx).2).1 with
    | some c2 =>
      left
      exact ⟨rfl, c2, rfl, by unfold processOp; rw [h1, h2]⟩
    | none =>
      right
      exact ⟨rfl, rfl, by unfold processOp; rw [h1, h2]⟩

/-- C1: if the first engine interaction of a public operation crashes and
the orchestrator's recovery produces a successful lint before the
operation settles, then the operation's public future resolves
successfully — the crash is never surfaced — and the published
diagnostics are exactly the engine diagnostics of the document's current
text. -/
theorem documentLinter_absorbed_crash_resolves_ok
    (op : LintOp) (c c2 : Core) (ctx : EngineCtx)
    (h1 : (attemptOp op c ctx).1 = none)
    (h2 : (recoverOpenLint c (attemptOp op c ctx).2).1 = some c2) :
    processOp op c ctx =
      (Outcome.ok, c2, (recoverOpenLint c (attemptOp op c ctx).2).2) ∧
    c2.doc.diags = ctx.lintF c.doc.text ∧
    c2.doc.text = c.doc.text := by
  have hshape := attemptOpenLint_some { c with engineDoc := none }
    (attemptOp op c ctx).2 c2 h2
  have hL := attemptOp_lintF op c ctx
  refine ⟨?_, ?_, ?_⟩
  · unfold processOp
    rw [h1]
    rw [h2]
  · rw [hshape.1, hL]
  · exact hshape.2

/-- Witness input for C1: a fresh linter over text "a". -/
def c1CoreW : Core := coreOf ['a']

/-- Witness input for C1: one injected fault, so the open crashes once and
recovery succeeds on the fresh worker. -/
def c1CtxW : EngineCtx := ctxOf [true]

/-- Witness for C1: on a concrete crashing-then-recovering schedule the
open operation resolves ok. -/
theorem documentLinter_absorbed_crash_witness :
    (attemptOp LintOp.openEditor c1CoreW c1CtxW).1 = none ∧
    (processOp LintOp.openEditor c1CoreW c1CtxW).1 = Outcome.ok := by
  refine ⟨by decide, ?_⟩
  have h := documentLinter_absorbed_crash_resolves_ok LintOp.openEditor c1CoreW
    { doc := { text := ['a'], diags := [1] },
      engineDoc := some { worker := 1, text := ['a'] } }
    c1CtxW (by decide) (by decide)
  rw [h.1]

/-- C2: an operation that surfaces a crash (settles as LintingCrashed)
leaves the document — in particular its published diagnostic set —
exactly as it was before the operation: empty when nothing was linted yet,
the last successfully linted diagnostics otherwise. -/
theorem documentLinter_surfaced_crash_preserves_diags
    (op : LintOp) (c : Core) (ctx : EngineCtx)
    (h : (processOp op c ctx).1 = Outcome.lintingCrashed) :
    (processOp op c ctx).2.1.doc = c.doc := by
  rcases processOp_cases op c ctx with ⟨c2, h1, he⟩ | ⟨h1, c2, h2, he⟩ | ⟨h1, h2, he⟩
  · rw [he] at h; exact absurd h (by simp)
  · rw [he] at h; exact absurd h (by simp)
  · rw [he]

/-- Witness for C2: with two injected faults the open crashes, recovery
crashes too, the crash is surfaced, and the diagnostics are untouched. -/
theorem documentLinter_surfaced_crash_witness :
    (processOp LintOp.openEditor (coreOf ['b']) (ctxOf [true, true])).1 =
      Outcome.lintingCrashed ∧
    (processOp LintOp.openEditor (coreOf ['b']) (ctxOf [true, true])).2.1.doc =
      (coreOf ['b']).doc :=
  ⟨by decide,
   documentLinter_surfaced_crash_preserves_diags LintOp.openEditor
     (coreOf ['b']) (ctxOf [true, true]) (by decide)⟩

/-- C6: disposeAsync may be called in any linter state and never throws
(its outcome is always ok); it marks the linter disposed, leaves no
pending operation behind, and settles every operation that was pending at
dispose time with DocumentLinterDisposed, in queue order. -/
theorem disposeAsync_settles_pending_never_throws
    (li : LinterState) (ctx : EngineCtx) :
    (disposeLinter li ctx).1 = Outcome.ok ∧
    (disposeLinter li ctx).2.1.disposed = true ∧
    (disposeLinter li ctx).2.1.pending = [] ∧
    (disposeLinter li ctx).2.1.settled =
      li.settled ++ li.pending.map (fun q => (q.1, Outcome.disposedError)) :=
  ⟨rfl, rfl, rfl, rfl⟩

/-- An engine call that returned success changed neither the manager nor
the crash counter. -/
theorem engineCall_false_fields (w : Nat) (ctx : EngineCtx)
    (h : (engineCall w ctx).1 = false) :
    (engineCall w ctx).2.mgr = ctx.mgr ∧
    (engineCall w ctx).2.crashes = ctx.crashes := by
  unfold engineCall at *
  by_cases hw : w ∈ ctx.mgr.crashed
  · simp [hw] at h
  · simp only [if_neg hw] at *
    cases hf : ctx.faults with
    | nil => simp [hf]
    | cons f rest =>
      cases f with
      | false => simp [hf]
      | true => simp [hf] at h

/-- The change-submission loop never decreases the crash counter. -/
theorem applyChangesLoop_crashes_mono : ∀ (chs : List TextChange) (w : Nat)
    (t : List Char) (ctx : EngineCtx),
    ctx.crashes ≤ (applyChangesLoop w chs t ctx).2.crashes := by
  intro chs
  induction chs with
  | nil => intro w t ctx; exact le_refl _
  | cons ch rest ih =>
    intro w t ctx
    unfold applyChangesLoop
    split
    · exact (engineCall_fields w ctx).2.2
    · exact le_trans (engineCall_fields w ctx).2.2
        (ih w (applyTextChange t ch) (engineCall w ctx).2)

/-- A change-submission loop on a healthy worker that did not increase the
crash counter delivered every change and left the manager unchanged. -/
theorem applyChangesLoop_no_crash : ∀ (chs : List TextChange) (w : Nat)
    (t : List Char) (ctx : EngineCtx),
    w ∉ ctx.mgr.crashed →
    (applyChangesLoop w chs t ctx).2.crashes = ctx.crashes →
    (applyChangesLoop w chs t ctx).1 = some (applyAllChanges t chs) ∧
    (applyChangesLoop w chs t ctx).2.mgr = ctx.mgr := by
  intro chs
  induction chs with
  | nil => intro w t ctx _ _; exact ⟨rfl, rfl⟩
  | cons ch rest ih =>
    intro w t ctx hw hcr
    unfold applyChangesLoop at hcr ⊢
    split at hcr
    · next hcall =>
      exact absurd ((engineCall_no_crash w ctx hw hcr).1)
        (by simp [hcall])
    · next hcall =>
      have hcmono := applyChangesLoop_crashes_mono rest w (applyTextChange t ch)
        (engineCall w ctx).2
      have hceq : (engineCall w ctx).2.crashes = ctx.crashes := by
        have := (engineCall_fields w ctx).2.2
        omega
      have hmgr := (engineCall_false_fields w ctx (by simpa using hcall)).1
      have hw2 : w ∉ (engineCall w ctx).2.mgr.crashed := by rw [hmgr]; exact hw
      have := ih w (applyTextChange t ch) (engineCall w ctx).2 hw2 (by omega)
      rw [if_neg hcall]
      refine ⟨?_, ?_⟩
      · rw [this.1]
        rfl
      · rw [this.2, hmgr]

/-- Materializing and linting never decreases the crash counter. -/
theorem attemptOpenLint_crashes_mono (c : Core) (ctx : EngineCtx) :
    ctx.crashes ≤ (attemptOpenLint c ctx).2.crashes := by
  have ha := (acquire_fields ctx).2.2.2.1
  have h1 := (engineCall_fields (acquire ctx).1 (acquire ctx).2).2.2
  have h2 := (engineCall_fields (acquire ctx).1
    (engineCall (acquire ctx).1 (acquire ctx).2).2).2.2
  unfold attemptOpenLint
  split
  · show ctx.crashes ≤ (engineCall (acquire ctx).1 (acquire ctx).2).2.crashes
    omega
  · split
    · show ctx.crashes ≤ (engineCall (acquire ctx).1
        (engineCall (acquire ctx).1 (acquire ctx).2).2).2.crashes
      omega
    · show ctx.crashes ≤ (engineCall (acquire ctx).1
        (engineCall (acquire ctx).1 (acquire ctx).2).2).2.crashes
      omega

/-- The case analysis of one change-application interaction on a linter
with a live engine document. -/
theorem attemptChanges_cases (chs : List TextChange) (c : Core)
    (ctx : EngineCtx) (ed : EngineDoc) (hd : c.engineDoc = some ed) :
    ((applyChangesLoop ed.worker chs ed.text ctx).1 = none ∧
      attemptChanges chs c ctx =
        (none, (applyChangesLoop ed.worker chs ed.text ctx).2)) ∨
    (∃ t2, (applyChangesLoop ed.worker chs ed.text ctx).1 = some t2 ∧
      (engineCall ed.worker (applyChangesLoop ed.worker chs ed.text ctx).2).1 = true ∧
      attemptChanges chs c ctx =
        (none, (engineCall ed.worker
          (applyChangesLoop ed.worker chs ed.text ctx).2).2)) ∨
    (∃ t2, (applyChangesLoop ed.worker chs ed.text ctx).1 = some t2 ∧
      (engineCall ed.worker (applyChangesLoop ed.worker chs ed.text ctx).2).1 = false ∧
      attemptChanges chs c ctx =
        (some { doc := { text := c.doc.text, diags := ctx.lintF t2 },
                engineDoc := some { worker := ed.worker, text := t2 } },
         (engineCall ed.worker
           (applyChangesLoop ed.worker chs ed.text ctx).2).2)) := by
  cases hl : (applyChangesLoop ed.worker chs ed.text ctx).1 with
  | none =>
    left
    exact ⟨rfl, by simp [attemptChanges, hd, hl]⟩
  | some t2 =>
    right
    by_cases hc : (engineCall ed.worker
        (applyChangesLoop ed.worker chs ed.text ctx).2).1 = true
    · left
      exact ⟨t2, rfl, hc, by simp [attemptChanges, hd, hl, hc]⟩
    · right
      refine ⟨t2, rfl, by simpa using hc, ?_⟩
      simp [attemptChanges, hd, hl, hc]

/-- The change-application interaction never decreases the crash
counter. -/
theorem attemptChanges_crashes_mono (chs : List TextChange) (c : Core)
    (ctx : EngineCtx) :
    ctx.crashes ≤ (attemptChanges chs c ctx).2.crashes := by
  cases hd : c.engineDoc with
  | none =>
    have he : attemptChanges chs c ctx = attemptOpenLint c ctx := by
      simp [attemptChanges, hd]
    rw [he]
    exact attemptOpenLint_crashes_mono c ctx
  | some ed =>
    rcases attemptChanges_cases chs c ctx ed hd with
      ⟨hl, he⟩ | ⟨t2, hl, hc, he⟩ | ⟨t2, hl, hc, he⟩
    · rw [he]
      exact applyChangesLoop_crashes_mono chs ed.worker ed.text ctx
    · rw [he]
      exact le_trans (applyChangesLoop_crashes_mono chs ed.worker ed.text ctx)
        (engineCall_fields ed.worker
          (applyChangesLoop ed.worker chs ed.text ctx).2).2.2
    · rw [he]
      exact le_trans (applyChangesLoop_crashes_mono chs ed.worker ed.text ctx)
        (engineCall_fields ed.worker
          (applyChangesLoop ed.worker chs ed.text ctx).2).2.2

/-- A change application on a live healthy engine document that ends
crashed has strictly increased the crash counter. -/
theorem attemptChanges_none_lt (chs : List TextChange) (c : Core)
    (ctx : EngineCtx) (ed : EngineDoc)
    (hd : c.engineDoc = some ed) (hw : ed.worker ∉ ctx.mgr.crashed)
    (hn : (attemptChanges chs c ctx).1 = none) :
    ctx.crashes < (attemptChanges chs c ctx).2.crashes := by
  rcases attemptChanges_cases chs c ctx ed hd with
    ⟨hl, he⟩ | ⟨t2, hl, hc, he⟩ | ⟨t2, hl, hc, he⟩
  · rw [he]
    show ctx.crashes < (applyChangesLoop ed.worker chs ed.text ctx).2.crashes
    rcases Nat.lt_or_ge ctx.crashes
      (applyChangesLoop ed.worker chs ed.text ctx).2.crashes with hlt | hge
    · exact hlt
    · have heq : (applyChangesLoop ed.worker chs ed.text ctx).2.crashes =
          ctx.crashes :=
        le_antisymm hge (applyChangesLoop_crashes_mono chs ed.worker ed.text ctx)
      have := (applyChangesLoop_no_crash chs ed.worker ed.text ctx hw heq).1
      rw [this] at hl
      simp at hl
  · rw [he]
    show ctx.crashes < (engineCall ed.worker
      (applyChangesLoop ed.worker chs ed.text ctx).2).2.crashes
    rcases Nat.lt_or_ge ctx.crashes (engineCall ed.worker
      (applyChangesLoop ed.worker chs ed.text ctx).2).2.crashes with hlt | hge
    · exact hlt
    · have hloopeq : (applyChangesLoop ed.worker chs ed.text ctx).2.crashes =
          ctx.crashes := by
        have h1 := applyChangesLoop_crashes_mono chs ed.worker ed.text ctx
        have h2 := (engineCall_fields ed.worker
          (applyChangesLoop ed.worker chs ed.text ctx).2).2.2
        omega
      have hmgr := (applyChangesLoop_no_crash chs ed.worker ed.text ctx hw hloopeq).2
      have hw2 : ed.worker ∉
          (applyChangesLoop ed.worker chs ed.text ctx).2.mgr.crashed := by
        rw [hmgr]; exact hw
      have hceq : (engineCall ed.worker
          (applyChangesLoop ed.worker chs ed.text ctx).2).2.crashes =
          (applyChangesLoop ed.worker chs ed.text ctx).2.crashes := by
        have h2 := (engineCall_fields ed.worker
          (applyChangesLoop ed.worker chs ed.text ctx).2).2.2
        omega
      have := (engineCall_no_crash ed.worker
        (applyChangesLoop ed.worker chs ed.text ctx).2 hw2 hceq).1
      rw [this] at hc
      exact absurd hc (by simp)
  · rw [he] at hn
    simp at hn

/-- C4 (amended): while no engine call of the operation crashes, the
orchestrator never reads the document's current text when processing
textChangedAsync — two runs over the same engine-side document and the
same change list publish the same diagnostics, namely the engine
diagnostics of the change-list-driven engine text, regardless of the two
documents' current texts. -/
theorem textChanged_diags_depend_only_on_change_list
    (chs : List TextChange) (cA cB : Core) (ed : EngineDoc) (ctx : EngineCtx)
    (hdA : cA.engineDoc = some ed) (hdB : cB.engineDoc = some ed)
    (hw : ed.worker ∉ ctx.mgr.crashed)
    (hcr : (processOp (LintOp.textChanged chs) cA ctx).2.2.crashes = ctx.crashes) :
    (processOp (LintOp.textChanged chs) cA ctx).2.1.doc.diags =
      (processOp (LintOp.textChanged chs) cB ctx).2.1.doc.diags ∧
    (processOp (LintOp.textChanged chs) cA ctx).2.1.doc.diags =
      ctx.lintF (applyAllChanges ed.text chs) ∧
    (processOp (LintOp.textChanged chs) cA ctx).1 = Outcome.ok ∧
    (processOp (LintOp.textChanged chs) cB ctx).1 = Outcome.ok := by
  rcases processOp_cases (LintOp.textChanged chs) cA ctx with
    ⟨c2, h1, he⟩ | ⟨h1, c2, h2, he⟩ | ⟨h1, h2, he⟩
  · -- the first attempt succeeded
    rw [he] at hcr
    have h1c : (attemptChanges chs cA ctx).1 = some c2 := h1
    have hcrc : (attemptChanges chs cA ctx).2.crashes = ctx.crashes := hcr
    rcases attemptChanges_cases chs cA ctx ed hdA with
      ⟨hl, heA⟩ | ⟨t2, hl, hc, heA⟩ | ⟨t2, hl, hc, heA⟩
    · rw [heA] at h1c; simp at h1c
    · rw [heA] at h1c; simp at h1c
    · -- extract the change-driven text
      have hloopeq : (applyChangesLoop ed.worker chs ed.text ctx).2.crashes =
          ctx.crashes := by
        have hm1 := applyChangesLoop_crashes_mono chs ed.worker ed.text ctx
        have hm2 := (engineCall_fields ed.worker
          (applyChangesLoop ed.worker chs ed.text ctx).2).2.2
        rw [heA] at hcrc
        have hcrc2 : (engineCall ed.worker
            (applyChangesLoop ed.worker chs ed.text ctx).2).2.crashes =
            ctx.crashes := hcrc
        omega
      have ht2 : t2 = applyAllChanges ed.text chs := by
        have := (applyChangesLoop_no_crash chs ed.worker ed.text ctx hw hloopeq).1
        rw [this] at hl
        exact (Option.some.injEq _ _ ▸ hl).symm
      have hc2 : c2 = { doc := { text := cA.doc.text, diags := ctx.lintF t2 },
                        engineDoc := some { worker := ed.worker, text := t2 } } := by
        rw [heA] at h1c
        simpa using h1c.symm
      -- the same engine facts drive run B
      rcases attemptChanges_cases chs cB ctx ed hdB with
        ⟨hlB, heB⟩ | ⟨t2B, hlB, hcB, heB⟩ | ⟨t2B, hlB, hcB, heB⟩
      · rw [hl] at hlB; simp at hlB
      · rw [hc] at hcB; simp at hcB
      · have ht2B : t2B = t2 := by
          rw [hl] at hlB
          simpa using hlB.symm
        have hBattempt : (attemptOp (LintOp.textChanged chs) cB ctx).1 =
            some { doc := { text := cB.doc.text, diags := ctx.lintF t2 },
                   engineDoc := some { worker := ed.worker, text := t2 } } := by
          show (attemptChanges chs cB ctx).1 = _
          rw [heB, ht2B]
        have heBproc : processOp (LintOp.textChanged chs) cB ctx =
            (Outcome.ok,
             { doc := { text := cB.doc.text, diags := ctx.lintF t2 },
               engineDoc := some { worker := ed.worker, text := t2 } },
             (attemptOp (LintOp.textChanged chs) cB ctx).2) := by
          unfold processOp
          rw [hBattempt]
        rw [he, heBproc, hc2, ht2]
        exact ⟨rfl, rfl, rfl, rfl⟩
  · -- the first attempt crashed: impossible under an unchanged crash counter
    exfalso
    rw [he] at hcr
    have hlt : ctx.crashes < (attemptChanges chs cA ctx).2.crashes :=
      attemptChanges_none_lt chs cA ctx ed hdA hw h1
    have hmono : (attemptChanges chs cA ctx).2.crashes ≤
        (recoverOpenLint cA (attemptOp (LintOp.textChanged chs) cA ctx).2).2.crashes :=
      attemptOpenLint_crashes_mono { cA with engineDoc := none }
        (attemptOp (LintOp.textChanged chs) cA ctx).2
    have hcr2 : (recoverOpenLint cA
        (attemptOp (LintOp.textChanged chs) cA ctx).2).2.crashes = ctx.crashes := hcr
    omega
  · exfalso
    rw [he] at hcr
    have hlt : ctx.crashes < (attemptChanges chs cA ctx).2.crashes :=
      attemptChanges_none_lt chs cA ctx ed hdA hw h1
    have hmono : (attemptChanges chs cA ctx).2.crashes ≤
        (recoverOpenLint cA (attemptOp (LintOp.textChanged chs) cA ctx).2).2.crashes :=
      attemptOpenLint_crashes_mono { cA with engineDoc := none }
        (attemptOp (LintOp.textChanged chs) cA ctx).2
    have hcr2 : (recoverOpenLint cA
        (attemptOp (LintOp.textChanged chs) cA ctx).2).2.crashes = ctx.crashes := hcr
    omega

/-- C4 counterexample input: a manager already holding worker 0. -/
def c4Ctx : EngineCtx :=
  { mgr := { current := some 0, everCreated := 1, crashed := [] },
    lintF := lintLen, faults := [true], crashes := 0,
    engineTrace := [], acquireTrace := [] }

/-- C4 counterexample input: a one-character insertion at the origin. -/
def c4Chg : TextChange :=
  { startLine := 0, startCharacter := 0, endLine := 0, endCharacter := 0,
    text := ['x'] }

/-- C4 counterexample input: engine doc on worker 0 with empty engine text
while the document's current text is "a". -/
def c4CoreA : Core :=
  { doc := { text := ['a'], diags := [] },
    engineDoc := some { worker := 0, text := [] } }

/-- C4 counterexample input: same engine doc and changes, but the
document's current text is "ab". -/
def c4CoreB : Core :=
  { doc := { text := ['a', 'b'], diags := [] },
    engineDoc := some { worker := 0, text := [] } }

/-- C4 counterexample: under an injected crash the orchestrator does read
the document's current text (crash recovery re-materializes from it), so
two textChangedAsync runs with equal engine-side text and equal change
lists but different document texts publish different diagnostics even
though both operations resolve successfully. -/
theorem textChanged_reads_document_text_on_crash :
    (processOp (LintOp.textChanged [c4Chg]) c4CoreA c4Ctx).1 = Outcome.ok ∧
    (processOp (LintOp.textChanged [c4Chg]) c4CoreB c4Ctx).1 = Outcome.ok ∧
    (processOp (LintOp.textChanged [c4Chg]) c4CoreA c4Ctx).2.1.doc.diags ≠
      (processOp (LintOp.textChanged [c4Chg]) c4CoreB c4Ctx).2.1.doc.diags := by
  refine ⟨?_, ?_, ?_⟩ <;> decide

/-- Witness inputs for the amended C4: same engine doc, no faults. -/
def c4wCtx : EngineCtx :=
  { mgr := { current := some 0, everCreated := 1, crashed := [] },
    lintF := lintLen, faults := [], crashes := 0,
    engineTrace := [], acquireTrace := [] }

/-- Witness input: engine doc for the amended C4 witness. -/
def c4wEd : EngineDoc := { worker := 0, text := ['q'] }

/-- Witness input: first run's core for the amended C4 witness. -/
def c4wCoreA : Core :=
  { doc := { text := ['a'], diags := [] }, engineDoc := some c4wEd }

/-- Witness input: second run's core, differing only in document text. -/
def c4wCoreB : Core :=
  { doc := { text := ['a', 'b', 'c'], diags := [] }, engineDoc := some c4wEd }

/-- Witness for the amended C4 at a concrete fault-free run. -/
theorem textChanged_diags_depend_only_on_change_list_witness :
    (processOp (LintOp.textChanged [c4Chg]) c4wCoreA c4wCtx).2.1.doc.diags =
      (processOp (LintOp.textChanged [c4Chg]) c4wCoreB c4wCtx).2.1.doc.diags ∧
    (processOp (LintOp.textChanged [c4Chg]) c4wCoreA c4wCtx).2.1.doc.diags =
      c4wCtx.lintF (applyAllChanges c4wEd.text [c4Chg]) ∧
    (processOp (LintOp.textChanged [c4Chg]) c4wCoreA c4wCtx).1 = Outcome.ok ∧
    (processOp (LintOp.textChanged [c4Chg]) c4wCoreB c4wCtx).1 = Outcome.ok :=
  textChanged_diags_depend_only_on_change_list [c4Chg] c4wCoreA c4wCoreB c4wEd
    c4wCtx (by decide) (by decide) (by decide) (by decide)

/-- The call ids of a linter in settle-then-queue order. -/
def idsOf (li : LinterState) : List Nat :=
  li.settled.map Prod.fst ++ li.pending.map Prod.fst

/-- Queue invariant: call ids are strictly increasing across settled
results followed by pending operations, all ids are below the next call
id, and a disposed linter has no pending operation. -/
def QInv (li : LinterState) : Prop :=
  List.Sorted (· < ·) (idsOf li) ∧
  (∀ a ∈ idsOf li, a < li.nextOpId) ∧
  (li.disposed = true → li.pending = [])

/-- Trace soundness: every recorded entry used a worker that was not in
the crashed set observed at that moment. -/
def TraceOK (tr : List (Nat × List Nat)) : Prop := ∀ p ∈ tr, p.1 ∉ p.2

/-- One if the manager's current worker is alive, zero otherwise. -/
def mgrBonus (m : Mgr) : Nat :=
  match m.current with
  | none => 0
  | some w => if w ∈ m.crashed then 0 else 1

/-- Manager invariant: distinct recorded crashes of previously created
workers, a bounded current worker, and the creation counter bounded by
the observed crashes plus one live worker. -/
def MgrInv (m : Mgr) : Prop :=
  m.crashed.Nodup ∧
  (∀ w ∈ m.crashed, w < m.everCreated) ∧
  (∀ w, m.current = some w → w < m.everCreated) ∧
  m.everCreated ≤ m.crashed.length + mgrBonus m

/-- Context invariant: manager invariant plus sound traces. -/
def CtxInv (ctx : EngineCtx) : Prop :=
  MgrInv ctx.mgr ∧ TraceOK ctx.engineTrace ∧ TraceOK ctx.acquireTrace

/-- A core only holds engine documents on previously created workers. -/
def CoreBound (c : Core) (m : Mgr) : Prop :=
  ∀ ed, c.engineDoc = some ed → ed.worker < m.everCreated

/-- System invariant. -/
def SysInv (s : Sys) : Prop :=
  CtxInv s.ctx ∧ ∀ li ∈ s.linters, QInv li ∧ CoreBound li.core s.ctx.mgr

/-- Creating a worker from a manager with no live current worker
preserves the manager invariant and hands out the fresh id. -/
theorem createWorker_inv (m : Mgr) (h : MgrInv m) (hb : mgrBonus m = 0) :
    (m.createWorker).1 ∉ m.crashed ∧
    (m.createWorker).1 < (m.createWorker).2.everCreated ∧
    MgrInv (m.createWorker).2 ∧
    m.everCreated ≤ (m.createWorker).2.everCreated ∧
    (m.createWorker).2.crashed = m.crashed := by
  obtain ⟨hnd, hcb, hcur, hlen⟩ := h
  have hfresh : m.everCreated ∉ m.crashed :=
    fun hmem => absurd (hcb _ hmem) (by omega)
  refine ⟨hfresh, by simp [Mgr.createWorker], ?_, by simp [Mgr.createWorker], rfl⟩
  refine ⟨hnd, ?_, ?_, ?_⟩
  · intro w hw
    simp only [Mgr.createWorker] at *
    exact lt_trans (hcb w hw) (by omega)
  · intro w hw
    simp only [Mgr.createWorker] at hw ⊢
    simp at hw
    omega
  · show (m.createWorker).2.everCreated ≤
      (m.createWorker).2.crashed.length + mgrBonus (m.createWorker).2
    have hb1 : mgrBonus (m.createWorker).2 = 1 := by
      simp [mgrBonus, Mgr.createWorker, hfresh]
    have he : (m.createWorker).2.everCreated = m.everCreated + 1 := rfl
    have hc : (m.createWorker).2.crashed = m.crashed := rfl
    rw [hb1, he, hc]
    omega

/-- Acquisition preserves the context invariant, returns a previously
created non-crashed worker, and only grows the creation counter while
leaving the crashed set, faults and crash counter alone. -/
theorem acquire_inv (ctx : EngineCtx) (h : CtxInv ctx) :
    CtxInv (acquire ctx).2 ∧
    (acquire ctx).1 < (acquire ctx).2.mgr.everCreated ∧
    ctx.mgr.everCreated ≤ (acquire ctx).2.mgr.everCreated ∧
    (acquire ctx).2.mgr.crashed = ctx.mgr.crashed ∧
    (acquire ctx).2.engineTrace = ctx.engineTrace := by
  obtain ⟨hm, het, hat⟩ := h
  have hres : (ctx.mgr.acquireWorker).1 ∉ ctx.mgr.crashed ∧
      (ctx.mgr.acquireWorker).1 < (ctx.mgr.acquireWorker).2.everCreated ∧
      MgrInv (ctx.mgr.acquireWorker).2 ∧
      ctx.mgr.everCreated ≤ (ctx.mgr.acquireWorker).2.everCreated ∧
      (ctx.mgr.acquireWorker).2.crashed = ctx.mgr.crashed := by
    cases hc : ctx.mgr.current with
    | none =>
      have heq : ctx.mgr.acquireWorker = ctx.mgr.createWorker := by
        unfold Mgr.acquireWorker
        rw [hc]
      rw [heq]
      exact createWorker_inv ctx.mgr hm (by simp [mgrBonus, hc])
    | some w =>
      by_cases hw : w ∈ ctx.mgr.crashed
      · have heq : ctx.mgr.acquireWorker = ctx.mgr.createWorker := by
          unfold Mgr.acquireWorker
          rw [hc]
          simp [hw]
        rw [heq]
        exact createWorker_inv ctx.mgr hm (by simp [mgrBonus, hc, hw])
      · have heq : ctx.mgr.acquireWorker = (w, ctx.mgr) := by
          unfold Mgr.acquireWorker
          rw [hc]
          simp [hw]
        rw [heq]
        exact ⟨hw, hm.2.2.1 w hc, hm, le_refl _, rfl⟩
  refine ⟨⟨hres.2.2.1, het, ?_⟩, hres.2.1, hres.2.2.2.1, hres.2.2.2.2, rfl⟩
  intro p hp
  rcases List.mem_cons.1 hp with hp | hp
  · rw [hp]
    exact hres.1
  · exact hat p hp

/-- The manager's live-worker bonus is at most one. -/
theorem mgrBonus_le_one (m : Mgr) : mgrBonus m ≤ 1 := by
  unfold mgrBonus
  cases m.current with
  | none => simp
  | some w =>
    by_cases hw : w ∈ m.crashed
    · simp [hw]
    · simp [hw]

/-- Marking a fresh crash preserves the manager invariant when the marked
worker was previously created. -/
theorem reportCrashed_inv (m : Mgr) (w : Nat) (h : MgrInv m)
    (hw : w < m.everCreated) :
    MgrInv (m.reportCrashed w) := by
  obtain ⟨hnd, hcb, hcur, hlen⟩ := h
  by_cases hmem : w ∈ m.crashed
  · have he : m.reportCrashed w = m := by
      unfold Mgr.reportCrashed
      rw [if_pos hmem]
    rw [he]
    exact ⟨hnd, hcb, hcur, hlen⟩
  · have he : (m.reportCrashed w).crashed = w :: m.crashed := by
      unfold Mgr.reportCrashed
      rw [if_neg hmem]
    have hcr : (m.reportCrashed w).current = m.current := rfl
    have hev : (m.reportCrashed w).everCreated = m.everCreated := rfl
    refine ⟨?_, ?_, ?_, ?_⟩
    · rw [he]
      exact List.nodup_cons.2 ⟨hmem, hnd⟩
    · intro v hv
      rw [he] at hv
      rcases List.mem_cons.1 hv with hv | hv
      · rw [hv, hev]; exact hw
      · rw [hev]; exact hcb v hv
    · intro v hv
      rw [hcr] at hv
      rw [hev]
      exact hcur v hv
    · have hb := mgrBonus_le_one m
      have hlen2 : (m.reportCrashed w).crashed.length = m.crashed.length + 1 := by
        rw [he]; rfl
      rw [hev, hlen2]
      omega

/-- An engine call preserves the context invariant when the worker was
previously created, and never changes the creation counter. -/
theorem engineCall_inv (w : Nat) (ctx : EngineCtx) (h : CtxInv ctx)
    (hw : w < ctx.mgr.everCreated) :
    CtxInv (engineCall w ctx).2 ∧
    (engineCall w ctx).2.mgr.everCreated = ctx.mgr.everCreated := by
  obtain ⟨hm, het, hat⟩ := h
  by_cases hmem : w ∈ ctx.mgr.crashed
  · have he : engineCall w ctx = (true, ctx) := by
      unfold engineCall
      rw [if_pos hmem]
    rw [he]
    exact ⟨⟨hm, het, hat⟩, rfl⟩
  · have htr : TraceOK ((w, ctx.mgr.crashed) :: ctx.engineTrace) := by
      intro p hp
      rcases List.mem_cons.1 hp with hp | hp
      · rw [hp]; exact hmem
      · exact het p hp
    cases hf : ctx.faults with
    | nil =>
      have he : engineCall w ctx =
          (false, { ctx with
            engineTrace := (w, ctx.mgr.crashed) :: ctx.engineTrace }) := by
        unfold engineCall
        rw [if_neg hmem, hf]
      rw [he]
      exact ⟨⟨hm, htr, hat⟩, rfl⟩
    | cons f rest =>
      cases f with
      | false =>
        have he : engineCall w ctx =
            (false, { ctx with
              engineTrace := (w, ctx.mgr.crashed) :: ctx.engineTrace
              faults := rest }) := by
          unfold engineCall
          rw [if_neg hmem, hf]
          rfl
        rw [he]
        exact ⟨⟨hm, htr, hat⟩, rfl⟩
      | true =>
        have he : engineCall w ctx =
            (true, { ctx with
              engineTrace := (w, ctx.mgr.crashed) :: ctx.engineTrace
              faults := rest
              mgr := ctx.mgr.reportCrashed w
              crashes := ctx.crashes + 1 }) := by
          unfold engineCall
          rw [if_neg hmem, hf]
          rfl
        rw [he]
        exact ⟨⟨reportCrashed_inv ctx.mgr w hm hw, htr, hat⟩, rfl⟩

/-- Open-and-lint preserves the context invariant, grows the creation
counter monotonically, and any produced core only references a created
worker. -/
theorem attemptOpenLint_inv (c : Core) (ctx : EngineCtx) (h : CtxInv ctx) :
    CtxInv (attemptOpenLint c ctx).2 ∧
    ctx.mgr.everCreated ≤ (attemptOpenLint c ctx).2.mgr.everCreated ∧
    (∀ c2, (attemptOpenLint c ctx).1 = some c2 →
      CoreBound c2 (attemptOpenLint c ctx).2.mgr) := by
  obtain ⟨hctx1, hwlt, hecmono, -, -⟩ := acquire_inv ctx h
  obtain ⟨hctx2, hec2⟩ := engineCall_inv (acquire ctx).1 (acquire ctx).2 hctx1 hwlt
  have hwlt2 : (acquire ctx).1 <
      (engineCall (acquire ctx).1 (acquire ctx).2).2.mgr.everCreated := by
    rw [hec2]; exact hwlt
  obtain ⟨hctx3, hec3⟩ := engineCall_inv (acquire ctx).1
    (engineCall (acquire ctx).1 (acquire ctx).2).2 hctx2 hwlt2
  unfold attemptOpenLint
  split
  · refine ⟨hctx2, ?_, ?_⟩
    · show ctx.mgr.everCreated ≤
        (engineCall (acquire ctx).1 (acquire ctx).2).2.mgr.everCreated
      omega
    intro c2 hc2
    simp at hc2
  · split
    · refine ⟨hctx3, ?_, ?_⟩
      · show ctx.mgr.everCreated ≤ (engineCall (acquire ctx).1
          (engineCall (acquire ctx).1 (acquire ctx).2).2).2.mgr.everCreated
        omega
      intro c2 hc2
      simp at hc2
    · refine ⟨hctx3, ?_, ?_⟩
      · show ctx.mgr.everCreated ≤ (engineCall (acquire ctx).1
          (engineCall (acquire ctx).1 (acquire ctx).2).2).2.mgr.everCreated
        omega
      intro c2 hc2
      simp only [Prod.fst, Option.some.injEq] at hc2
      intro ed hed
      rw [← hc2] at hed
      simp only [Option.some.injEq] at hed
      rw [← hed]
      show (acquire ctx).1 < (engineCall (acquire ctx).1
        (engineCall (acquire ctx).1 (acquire ctx).2).2).2.mgr.everCreated
      omega

/-- The change-submission loop preserves the context invariant and the
creation counter when driven on a created worker. -/
theorem applyChangesLoop_inv : ∀ (chs : List TextChange) (w : Nat)
    (t : List Char) (ctx : EngineCtx), CtxInv ctx → w < ctx.mgr.everCreated →
    CtxInv (applyChangesLoop w chs t ctx).2 ∧
    (applyChangesLoop w chs t ctx).2.mgr.everCreated = ctx.mgr.everCreated := by
  intro chs
  induction chs with
  | nil => intro w t ctx h _; exact ⟨h, rfl⟩
  | cons ch rest ih =>
    intro w t ctx h hw
    obtain ⟨h1, he1⟩ := engineCall_inv w ctx h hw
    unfold applyChangesLoop
    split
    · exact ⟨h1, he1⟩
    · have := ih w (applyTextChange t ch) (engineCall w ctx).2 h1 (by omega)
      exact ⟨this.1, by omega⟩

/-- The change-application interaction preserves the context invariant,
grows the creation counter monotonically, and any produced core only
references a created worker. -/
theorem attemptChanges_inv (chs : List TextChange) (c : Core)
    (ctx : EngineCtx) (h : CtxInv ctx) (hb : CoreBound c ctx.mgr) :
    CtxInv (attemptChanges chs c ctx).2 ∧
    ctx.mgr.everCreated ≤ (attemptChanges chs c ctx).2.mgr.everCreated ∧
    (∀ c2, (attemptChanges chs c ctx).1 = some c2 →
      CoreBound c2 (attemptChanges chs c ctx).2.mgr) := by
  cases hd : c.engineDoc with
  | none =>
    have he : attemptChanges chs c ctx = attemptOpenLint c ctx := by
      simp [attemptChanges, hd]
    rw [he]
    exact attemptOpenLint_inv c ctx h
  | some ed =>
    have hwed : ed.worker < ctx.mgr.everCreated := hb ed hd
    obtain ⟨hl1, he1⟩ := applyChangesLoop_inv chs ed.worker ed.text ctx h hwed
    have hwed1 : ed.worker <
        (applyChangesLoop ed.worker chs ed.text ctx).2.mgr.everCreated := by
      omega
    obtain ⟨hl2, he2⟩ := engineCall_inv ed.worker
      (applyChangesLoop ed.worker chs ed.text ctx).2 hl1 hwed1
    rcases attemptChanges_cases chs c ctx ed hd with
      ⟨hl, he⟩ | ⟨t2, hl, hc, he⟩ | ⟨t2, hl, hc, he⟩
    · rw [he]
      refine ⟨hl1, ?_, ?_⟩
      · show ctx.mgr.everCreated ≤
          (applyChangesLoop ed.worker chs ed.text ctx).2.mgr.everCreated
        omega
      intro c2 hc2
      simp at hc2
    · rw [he]
      refine ⟨hl2, ?_, ?_⟩
      · show ctx.mgr.everCreated ≤ (engineCall ed.worker
          (applyChangesLoop ed.worker chs ed.text ctx).2).2.mgr.everCreated
        omega
      intro c2 hc2
      simp at hc2
    · rw [he]
      refine ⟨hl2, ?_, ?_⟩
      · show ctx.mgr.everCreated ≤ (engineCall ed.worker
          (applyChangesLoop ed.worker chs ed.text ctx).2).2.mgr.everCreated
        omega
      intro c2 hc2
      simp only [Prod.fst, Option.some.injEq] at hc2
      intro ed2 hed2
      rw [← hc2] at hed2
      simp only [Option.some.injEq] at hed2
      rw [← hed2]
      show ed.worker < (engineCall ed.worker
        (applyChangesLoop ed.worker chs ed.text ctx).2).2.mgr.everCreated
      omega

/-- Any first engine interaction preserves the context invariant, grows
the creation counter, and bounds any produced core. -/
theorem attemptOp_inv (op : LintOp) (c : Core) (ctx : EngineCtx)
    (h : CtxInv ctx) (hb : CoreBound c ctx.mgr) :
    CtxInv (attemptOp op c ctx).2 ∧
    ctx.mgr.everCreated ≤ (attemptOp op c ctx).2.mgr.everCreated ∧
    (∀ c2, (attemptOp op c ctx).1 = some c2 →
      CoreBound c2 (attemptOp op c ctx).2.mgr) := by
  cases op with
  | openEditor => exact attemptOpenLint_inv c ctx h
  | textChanged chs => exact attemptChanges_inv chs c ctx h hb

/-- Processing one public operation preserves the context invariant,
grows the creation counter, and bounds the resulting core. -/
theorem processOp_inv (op : LintOp) (c : Core) (ctx : EngineCtx)
    (h : CtxInv ctx) (hb : CoreBound c ctx.mgr) :
    CtxInv (processOp op c ctx).2.2 ∧
    ctx.mgr.everCreated ≤ (processOp op c ctx).2.2.mgr.everCreated ∧
    CoreBound (processOp op c ctx).2.1 (processOp op c ctx).2.2.mgr := by
  obtain ⟨ha1, ha2, ha3⟩ := attemptOp_inv op c ctx h hb
  rcases processOp_cases op c ctx with
    ⟨c2, h1, he⟩ | ⟨h1, c2, h2, he⟩ | ⟨h1, h2, he⟩
  · rw [he]
    exact ⟨ha1, ha2, ha3 c2 h1⟩
  · obtain ⟨hr1, hr2, hr3⟩ := attemptOpenLint_inv { c with engineDoc := none }
      (attemptOp op c ctx).2 ha1
    rw [he]
    refine ⟨hr1, ?_, hr3 c2 h2⟩
    show ctx.mgr.everCreated ≤
      (recoverOpenLint c (attemptOp op c ctx).2).2.mgr.everCreated
    have hre : (recoverOpenLint c (attemptOp op c ctx).2).2.mgr.everCreated =
        (attemptOpenLint { c with engineDoc := none }
          (attemptOp op c ctx).2).2.mgr.everCreated := rfl
    omega
  · obtain ⟨hr1, hr2, hr3⟩ := attemptOpenLint_inv { c with engineDoc := none }
      (attemptOp op c ctx).2 ha1
    rw [he]
    refine ⟨hr1, ?_, ?_⟩
    · show ctx.mgr.everCreated ≤
        (recoverOpenLint c (attemptOp op c ctx).2).2.mgr.everCreated
      have hre : (recoverOpenLint c (attemptOp op c ctx).2).2.mgr.everCreated =
          (attemptOpenLint { c with engineDoc := none }
            (attemptOp op c ctx).2).2.mgr.everCreated := rfl
      omega
    intro ed hed
    simp at hed

/-- Disposal of the engine document preserves the context invariant and
the creation counter, and the resulting core holds no engine document. -/
theorem disposeCore_inv (c : Core) (ctx : EngineCtx)
    (h : CtxInv ctx) (hb : CoreBound c ctx.mgr) :
    CtxInv (disposeCore c ctx).2 ∧
    ctx.mgr.everCreated ≤ (disposeCore c ctx).2.mgr.everCreated ∧
    (disposeCore c ctx).1.engineDoc = none := by
  cases hd : c.engineDoc with
  | none =>
    have he : disposeCore c ctx = (c, ctx) := by
      simp [disposeCore, hd]
    rw [he]
    exact ⟨h, le_refl _, hd⟩
  | some ed =>
    have he : disposeCore c ctx =
        ({ c with engineDoc := none }, (engineCall ed.worker ctx).2) := by
      simp [disposeCore, hd]
    obtain ⟨h1, he1⟩ := engineCall_inv ed.worker ctx h (hb ed hd)
    rw [he]
    refine ⟨h1, ?_, rfl⟩
    show ctx.mgr.everCreated ≤ (engineCall ed.worker ctx).2.mgr.everCreated
    omega

/-- Appending a strict upper bound keeps a list strictly sorted. -/
theorem sorted_append_single (l : List Nat) (x : Nat)
    (h : List.Sorted (· < ·) l) (hb : ∀ a ∈ l, a < x) :
    List.Sorted (· < ·) (l ++ [x]) := by
  refine List.pairwise_append.mpr ⟨h, ?_, ?_⟩
  · simp
  · intro a ha b hbb
    simp only [List.mem_singleton] at hbb
    rw [hbb]
    exact hb a ha

/-- A bigger creation counter keeps a core bounded. -/
theorem coreBound_mono (c : Core) (m m2 : Mgr)
    (h : CoreBound c m) (hle : m.everCreated ≤ m2.everCreated) :
    CoreBound c m2 :=
  fun ed hed => lt_of_lt_of_le (h ed hed) hle

/-- A public call preserves the queue invariant and does not touch the
core. -/
theorem callLinter_inv (li : LinterState) (op : LintOp) (h : QInv li) :
    QInv (callLinter li op) ∧ (callLinter li op).core = li.core := by
  obtain ⟨hs, hb, hdp⟩ := h
  unfold callLinter
  split
  · next hdisp =>
    have hpend : li.pending = [] := hdp hdisp
    have hids : idsOf { li with
        settled := li.settled ++ [(li.nextOpId, Outcome.disposedError)]
        nextOpId := li.nextOpId + 1 } =
        (li.settled.map Prod.fst ++ [li.nextOpId]) ++ li.pending.map Prod.fst := by
      simp [idsOf]
    have hids0 : idsOf li = li.settled.map Prod.fst := by
      simp [idsOf, hpend]
    refine ⟨⟨?_, ?_, ?_⟩, rfl⟩
    · rw [hids, hpend]
      simp only [List.map_nil, List.append_nil]
      refine sorted_append_single _ _ ?_ ?_
      · rw [hids0] at hs
        exact hs
      · intro a ha
        apply hb
        rw [hids0]
        exact ha
    · intro a ha
      rw [hids, hpend] at ha
      simp only [List.map_nil, List.append_nil, List.mem_append,
        List.mem_singleton] at ha
      show a < li.nextOpId + 1
      rcases ha with ha | ha
      · have := hb a (by rw [hids0]; exact ha)
        omega
      · omega
    · intro _
      show li.pending = []
      exact hpend
  · next hdisp =>
    have hids : idsOf { li with
        pending := li.pending ++ [(li.nextOpId, op)]
        nextOpId := li.nextOpId + 1 } = idsOf li ++ [li.nextOpId] := by
      simp [idsOf]
    refine ⟨⟨?_, ?_, ?_⟩, rfl⟩
    · rw [hids]
      exact sorted_append_single _ _ hs hb
    · intro a ha
      rw [hids] at ha
      simp only [List.mem_append, List.mem_singleton] at ha
      show a < li.nextOpId + 1
      rcases ha with ha | ha
      · have := hb a ha
        omega
      · omega
    · intro hd2
      exact absurd hd2 hdisp

/-- A scheduler step preserves the queue invariant, the core bound and
the context invariant, and grows the creation counter. -/
theorem stepLinter_inv (li : LinterState) (ctx : EngineCtx)
    (h : QInv li) (hcb : CoreBound li.core ctx.mgr) (hctx : CtxInv ctx) :
    QInv (stepLinter li ctx).1 ∧
    CoreBound (stepLinter li ctx).1.core (stepLinter li ctx).2.mgr ∧
    CtxInv (stepLinter li ctx).2 ∧
    ctx.mgr.everCreated ≤ (stepLinter li ctx).2.mgr.everCreated := by
  obtain ⟨hs, hb, hdp⟩ := h
  unfold stepLinter
  split
  · exact ⟨⟨hs, hb, hdp⟩, hcb, hctx, le_refl _⟩
  · next hdisp =>
    split
    · exact ⟨⟨hs, hb, hdp⟩, hcb, hctx, le_refl _⟩
    · next p rest heq =>
      obtain ⟨hp1, hp2, hp3⟩ := processOp_inv p.2 li.core ctx hctx hcb
      have hids : idsOf { li with
          core := (processOp p.2 li.core ctx).2.1
          pending := rest
          settled := li.settled ++ [(p.1, (processOp p.2 li.core ctx).1)] } =
          idsOf li := by
        simp [idsOf, heq]
      refine ⟨⟨?_, ?_, ?_⟩, hp3, hp1, hp2⟩
      · rw [hids]
        exact hs
      · intro a ha
        rw [hids] at ha
        exact hb a ha
      · intro hd2
        exact absurd hd2 hdisp

/-- Disposal preserves the queue invariant, empties the core's engine
document, and preserves the context invariant. -/
theorem disposeLinter_inv (li : LinterState) (ctx : EngineCtx)
    (h : QInv li) (hcb : CoreBound li.core ctx.mgr) (hctx : CtxInv ctx) :
    QInv (disposeLinter li ctx).2.1 ∧
    CoreBound (disposeLinter li ctx).2.1.core (disposeLinter li ctx).2.2.mgr ∧
    CtxInv (disposeLinter li ctx).2.2 ∧
    ctx.mgr.everCreated ≤ (disposeLinter li ctx).2.2.mgr.everCreated := by
  obtain ⟨hs, hb, hdp⟩ := h
  obtain ⟨hd1, hd2, hd3⟩ := disposeCore_inv li.core ctx hctx hcb
  have hids : idsOf (disposeLinter li ctx).2.1 = idsOf li := by
    show idsOf { core := (disposeCore li.core ctx).1
                 disposed := true
                 pending := []
                 nextOpId := li.nextOpId
                 settled := li.settled ++
                   li.pending.map (fun q => (q.1, Outcome.disposedError)) } =
      idsOf li
    simp [idsOf, List.map_map]
  refine ⟨⟨?_, ?_, ?_⟩, ?_, hd1, hd2⟩
  · rw [hids]
    exact hs
  · intro a ha
    rw [hids] at ha
    exact hb a ha
  · intro _
    rfl
  · intro ed hed
    show ed.worker < (disposeCore li.core ctx).2.mgr.everCreated
    have : (disposeLinter li ctx).2.1.core = (disposeCore li.core ctx).1 := rfl
    rw [this] at hed
    rw [hd3] at hed
    cases hed

/-- One driver event preserves the system invariant. -/
theorem execEv_inv (s : Sys) (e : Ev) (h : SysInv s) : SysInv (execEv s e) := by
  obtain ⟨hctx, hls⟩ := h
  cases e with
  | call i op =>
    simp only [execEv]
    cases hg : s.linters[i]? with
    | none => exact ⟨hctx, hls⟩
    | some li =>
      have hli := hls li (List.getElem?_mem hg)
      obtain ⟨hq, hc⟩ := callLinter_inv li op hli.1
      refine ⟨hctx, ?_⟩
      intro x hx
      rcases List.mem_or_eq_of_mem_set hx with hx | hx
      · exact hls x hx
      · rw [hx]
        refine ⟨hq, ?_⟩
        rw [hc]
        exact hli.2
  | step i =>
    simp only [execEv]
    cases hg : s.linters[i]? with
    | none => exact ⟨hctx, hls⟩
    | some li =>
      have hli := hls li (List.getElem?_mem hg)
      obtain ⟨hq, hcb, hctx2, hec⟩ := stepLinter_inv li s.ctx hli.1 hli.2 hctx
      refine ⟨hctx2, ?_⟩
      intro x hx
      rcases List.mem_or_eq_of_mem_set hx with hx | hx
      · have := hls x hx
        exact ⟨this.1, coreBound_mono x.core s.ctx.mgr _ this.2 hec⟩
      · rw [hx]
        exact ⟨hq, hcb⟩
  | disposeEv i =>
    simp only [execEv]
    cases hg : s.linters[i]? with
    | none => exact ⟨hctx, hls⟩
    | some li =>
      have hli := hls li (List.getElem?_mem hg)
      obtain ⟨hq, hcb, hctx2, hec⟩ := disposeLinter_inv li s.ctx hli.1 hli.2 hctx
      refine ⟨hctx2, ?_⟩
      intro x hx
      rcases List.mem_or_eq_of_mem_set hx with hx | hx
      · have := hls x hx
        exact ⟨this.1, coreBound_mono x.core s.ctx.mgr _ this.2 hec⟩
      · rw [hx]
        exact ⟨hq, hcb⟩

/-- A whole driver schedule preserves the system invariant. -/
theorem runSys_inv : ∀ (sched : List Ev) (s : Sys), SysInv s →
    SysInv (runSys s sched) := by
  intro sched
  induction sched with
  | nil => intro s h; exact h
  | cons e rest ih =>
    intro s h
    exact ih (execEv s e) (execEv_inv s e h)

/-- The initial system satisfies the invariant. -/
theorem initSys_inv (lintF : List Char → List Nat) (texts : List (List Char))
    (faults : List Bool) : SysInv (initSys lintF texts faults) := by
  refine ⟨⟨⟨?_, ?_, ?_, ?_⟩, ?_, ?_⟩, ?_⟩
  · exact List.nodup_nil
  · intro w hw
    cases hw
  · intro w hw
    cases hw
  · show 0 ≤ 0 + mgrBonus Mgr.begin
    omega
  · intro p hp
    cases hp
  · intro p hp
    cases hp
  · intro li hli
    simp only [initSys, List.mem_map] at hli
    obtain ⟨t, -, hli⟩ := hli
    rw [← hli]
    refine ⟨⟨?_, ?_, ?_⟩, ?_⟩
    · show List.Sorted (· < ·) (idsOf (mkLinter t))
      simp [idsOf, mkLinter]
    · intro a ha
      simp [idsOf, mkLinter] at ha
    · intro hd
      cases hd
    · intro ed hed
      cases hed

/-- C3: per-linter FIFO — under every driver schedule (any interleaving
of public calls, executor steps and disposals, with any fault schedule),
the settle order of every linter's operations is exactly the order in
which they were enqueued: the settled call ids are strictly increasing. -/
theorem linter_completions_in_call_order
    (lintF : List Char → List Nat) (texts : List (List Char))
    (faults : List Bool) (sched : List Ev) (i : Nat) :
    List.Sorted (· < ·)
      (((runSys (initSys lintF texts faults) sched).linters.getD i
        defaultLinter).settled.map Prod.fst) := by
  have hinv := runSys_inv sched _ (initSys_inv lintF texts faults)
  cases hg : (runSys (initSys lintF texts faults) sched).linters[i]? with
  | none =>
    have hgd : (runSys (initSys lintF texts faults) sched).linters.getD i
        defaultLinter = defaultLinter := by
      rw [List.getD_eq_getElem?_getD, hg]
      rfl
    rw [hgd]
    simp [defaultLinter, mkLinter]
  | some li =>
    have hgd : (runSys (initSys lintF texts faults) sched).linters.getD i
        defaultLinter = li := by
      rw [List.getD_eq_getElem?_getD, hg]
      rfl
    rw [hgd]
    have hq := (hinv.2 li (List.getElem?_mem hg)).1
    have hsub : List.Sublist (li.settled.map Prod.fst) (idsOf li) :=
      List.sublist_append_left _ _
    exact List.Pairwise.sublist hsub hq.1

/-- C5: in every run, every engine call and every acquisition uses a
worker that is not in the crashed set observed at that moment (a crashed
WorkerHandle is never used again and the manager never hands one out);
moreover, immediately after reportCrashed(H) on any created handle H, an
acquireWorker returns a handle different from H. -/
theorem crashed_workers_never_reused :
    (∀ (lintF : List Char → List Nat) (texts : List (List Char))
       (faults : List Bool) (sched : List Ev),
      TraceOK (runSys (initSys lintF texts faults) sched).ctx.engineTrace ∧
      TraceOK (runSys (initSys lintF texts faults) sched).ctx.acquireTrace) ∧
    (∀ (m : Mgr) (w : Nat), w < m.everCreated →
      ((m.reportCrashed w).acquireWorker).1 ≠ w) := by
  constructor
  · intro lintF texts faults sched
    have hinv := runSys_inv sched _ (initSys_inv lintF texts faults)
    exact ⟨hinv.1.2.1, hinv.1.2.2⟩
  · intro m w hw
    have hmem : w ∈ (m.reportCrashed w).crashed := by
      unfold Mgr.reportCrashed
      split
      · next hmem2 => simpa using hmem2
      · simp
    have hev : (m.reportCrashed w).everCreated = m.everCreated := rfl
    unfold Mgr.acquireWorker
    cases hc : (m.reportCrashed w).current with
    | none =>
      show ((m.reportCrashed w).createWorker).1 ≠ w
      simp only [Mgr.createWorker]
      omega
    | some v =>
      show (if v ∈ (m.reportCrashed w).crashed
        then (m.reportCrashed w).createWorker
        else (v, m.reportCrashed w)).1 ≠ w
      by_cases hvc : v ∈ (m.reportCrashed w).crashed
      · rw [if_pos hvc]
        show ((m.reportCrashed w).createWorker).1 ≠ w
        simp only [Mgr.createWorker]
        omega
      · rw [if_neg hvc]
        intro heq
        have hveq : v = w := heq
        rw [hveq] at hvc
        exact hvc hmem

/-- Witness for C5's manager clause at a concrete manager. -/
theorem crashed_workers_never_reused_witness :
    ((Mgr.reportCrashed
      { current := some 0, everCreated := 1, crashed := [] } 0).acquireWorker).1 ≠
      0 :=
  crashed_workers_never_reused.2
    { current := some 0, everCreated := 1, crashed := [] } 0 (by decide)

/-- The shared no-fault two-linter schedule: both linters open their
documents and then each applies a (empty) text change. -/
def c7Sched : List Ev :=
  [Ev.call 0 LintOp.openEditor, Ev.step 0,
   Ev.call 1 LintOp.openEditor, Ev.step 1,
   Ev.call 0 (LintOp.textChanged []), Ev.step 0,
   Ev.call 1 (LintOp.textChanged []), Ev.step 1]

/-- C7: in every run over one shared manager,
numberOfProcessesEverCreated is at most 1 plus the number of observed
crashes; and in the concrete crash-free run where two linters open and
edit their documents, both share worker 0 and the counter equals 1. -/
theorem processes_created_bounded_by_crashes :
    (∀ (lintF : List Char → List Nat) (texts : List (List Char))
       (faults : List Bool) (sched : List Ev),
      (runSys (initSys lintF texts faults) sched).ctx.mgr.everCreated ≤
        1 + (runSys (initSys lintF texts faults) sched).ctx.mgr.crashed.length) ∧
    ((runSys (initSys lintLen [['a'], ['b']] []) c7Sched).ctx.mgr.everCreated
        = 1 ∧
     (((runSys (initSys lintLen [['a'], ['b']] []) c7Sched).linters.getD 0
        defaultLinter).core.engineDoc).map EngineDoc.worker = some 0 ∧
     (((runSys (initSys lintLen [['a'], ['b']] []) c7Sched).linters.getD 1
        defaultLinter).core.engineDoc).map EngineDoc.worker = some 0) := by
  constructor
  · intro lintF texts faults sched
    have hinv := runSys_inv sched _ (initSys_inv lintF texts faults)
    have hb := mgrBonus_le_one (runSys (initSys lintF texts faults) sched).ctx.mgr
    have hlen := hinv.1.1.2.2.2
    omega
  · exact ⟨by decide, by decide, by decide⟩
